import Mathlib

/-!
Verification development for the `list-all-pages` crawler
(`src/crawl.py`, `src/crawl_pages.py`, `src/spa_crawl.py`).

The three scripts share one design: a breadth-first single-domain crawler
built on `urllib.parse.urlparse`.  This file gives a shallow embedding of

* the slice of CPython's `urllib.parse.urlparse` that the scripts use
  (scheme / netloc / path / params / query / fragment splitting, the
  "Invalid IPv6 URL" `ValueError` for an authority with mismatched square
  brackets, removal of tab, CR and LF characters, and stripping of leading
  control-or-space characters).  Two further raising paths of CPython's
  `urlsplit` are not modelled, because they require Unicode NFKC tables or
  host-syntax validation: `_checknetloc` (a `ValueError` for a non-ASCII
  netloc that changes under NFKC normalization into one containing a
  delimiter; for an empty or all-ASCII netloc it returns immediately
  without raising) and `_check_bracketed_host` (extra validation of
  bracketed hosts, reachable only when '[' occurs in the netloc).  Both
  paths only reject additional inputs.  Accordingly, the one totality
  statement proved below is restricted to all-ASCII inputs, on which
  neither unmodelled path can raise, and every other theorem about a
  parse is conditional on its success.
  `str.lower()` is modelled on ASCII letters only, which is exact for the
  scheme (whose characters are checked to be ASCII before lowering) and
  for the extension suffixes that `is_valid_page_url` compares against.
* `PageCrawler.normalize_url`, `PageCrawler.is_same_domain`,
  `PageCrawler.is_valid_page_url` and `PageCrawler.save_to_csv`,
* the `PageCrawler.crawl` loop of each variant as a step function on an
  explicit crawler state.  The HTTP / browser backend together with
  HTML parsing plus `urljoin` link resolution is a collaborator and is
  modelled as an oracle `env : String -> FetchOutcome` giving, per fetched
  URL, either the declared content type, extracted title / description and
  the list of absolute link URLs, or a timeout / transport failure.
  Python exceptions raised by fallible calls are modelled with `Except`;
  an exception that escapes the `while` loop is recorded in the `aborted`
  flag (in the scripts it propagates to `main`, which still flushes).
-/

set_option autoImplicit false

instance {ε α : Type} [DecidableEq ε] [DecidableEq α] : DecidableEq (Except ε α) := fun x y =>
  match x, y with
  | Except.ok a, Except.ok b =>
    if h : a = b then Decidable.isTrue (by rw [h]) else Decidable.isFalse (by simp [h])
  | Except.ok _, Except.error _ => Decidable.isFalse (by simp)
  | Except.error _, Except.ok _ => Decidable.isFalse (by simp)
  | Except.error e, Except.error f =>
    if h : e = f then Decidable.isTrue (by rw [h]) else Decidable.isFalse (by simp [h])

/-! ### Character helpers -/

/-- ASCII lower-casing of one character; models `str.lower` on the ASCII
letters (the only case the crawler's comparisons depend on). -/
def asciiLower : Char → Char
  | 'A' => 'a' | 'B' => 'b' | 'C' => 'c' | 'D' => 'd' | 'E' => 'e' | 'F' => 'f'
  | 'G' => 'g' | 'H' => 'h' | 'I' => 'i' | 'J' => 'j' | 'K' => 'k' | 'L' => 'l'
  | 'M' => 'm' | 'N' => 'n' | 'O' => 'o' | 'P' => 'p' | 'Q' => 'q' | 'R' => 'r'
  | 'S' => 's' | 'T' => 't' | 'U' => 'u' | 'V' => 'v' | 'W' => 'w' | 'X' => 'x'
  | 'Y' => 'y' | 'Z' => 'z'
  | c => c

/-- The characters allowed in a URL scheme, exactly CPython's
`urllib.parse.scheme_chars`. -/
def schemeChars : List Char :=
  "abcdefghijklmnopqrstuvwxyzABCDEFGHIJKLMNOPQRSTUVWXYZ0123456789+-.".data

def isSchemeChar (c : Char) : Bool := schemeChars.contains c

/-- Is `c` one of the three characters that terminate the netloc
(`/`, `?`, `#`)? -/
def isNetlocDelim (c : Char) : Bool := c == '/' || c == '?' || c == '#'

/-! ### List-of-characters helpers -/

/-- Split a list at the first occurrence of `c`; `none` when `c` is absent.
Models Python's `str.split(c, 1)` / `str.find(c)` pattern. -/
def splitFirst (c : Char) : List Char → Option (List Char × List Char)
  | [] => none
  | a :: l =>
    if a = c then some ([], l)
    else
      match splitFirst c l with
      | some (x, y) => some (a :: x, y)
      | none => none

/-- Take the netloc portion (everything before the first `/`, `?` or `#`)
and return it with the remainder; models `urllib.parse._splitnetloc`. -/
def netlocTake : List Char → List Char × List Char
  | [] => ([], [])
  | a :: l =>
    if isNetlocDelim a then ([], a :: l)
    else
      let p := netlocTake l
      (a :: p.1, p.2)

/-- Strip every trailing `'/'`; models Python's `str.rstrip('/')`. -/
def rstripSlashes (l : List Char) : List Char :=
  (l.reverse.dropWhile fun c => c == '/').reverse

/-- Does `l` contain `pat` as a contiguous sublist?  Models Python's
`pat in l` test on strings. -/
def hasSub (l pat : List Char) : Bool :=
  if pat.isPrefixOf l then true
  else
    match l with
    | [] => false
    | _ :: t => hasSub t pat

/-! ### The urlparse model -/

/-- The components of `urllib.parse.urlparse` that the crawler reads.
The `params` component (split off the last path segment at `;`) is dropped,
matching the fact that the crawler only ever reads `scheme`, `netloc`,
`path` and `query`; `path` is the params-stripped path, exactly the value
of `ParseResult.path`. -/
structure UrlParts where
  scheme : List Char
  netloc : List Char
  path : List Char
  query : List Char
  fragment : List Char
deriving DecidableEq

/-- Leading control-or-space strip plus tab / CR / LF removal that
`urlsplit` applies before parsing. -/
def preprocess (l : List Char) : List Char :=
  (l.dropWhile fun c => c.toNat ≤ 32).filter fun c => !(c == '\t' || c == '\r' || c == '\n')

/-- Scheme recognition of `urlsplit`: a leading run of scheme characters
whose first character is an ASCII letter, followed by `:`; the scheme is
lower-cased.  Returns `(scheme, rest)`, with `scheme = []` and the input
unchanged when no scheme is recognised. -/
def schemeSplit (l : List Char) : List Char × List Char :=
  match splitFirst ':' l with
  | some (b, after) =>
    match b with
    | [] => ([], l)
    | c :: cs =>
      if c.isAlpha && (c :: cs).all isSchemeChar then ((c :: cs).map asciiLower, after)
      else ([], l)
  | none => ([], l)

/-- Fragment then query splitting applied to the part after the netloc:
`url.split('#', 1)` followed by `url.split('?', 1)`.
Returns `(path, query, fragment)`. -/
def fragQuerySplit (l : List Char) : List Char × List Char × List Char :=
  match splitFirst '#' l with
  | some (a, f) =>
    match splitFirst '?' a with
    | some (p, q) => (p, q, f)
    | none => (a, [], f)
  | none =>
    match splitFirst '?' l with
    | some (p, q) => (p, q, [])
    | none => (l, [], [])

/-- Drop the `;params` suffix of the last path segment; models
`urllib.parse._splitparams` (guarded, as in `urlparse`, by `';' in url`). -/
def splitParams (p : List Char) : List Char :=
  if p.contains ';' then
    if p.contains '/' then
      match splitFirst ';' (p.reverse.takeWhile fun c => !(c == '/')).reverse with
      | some (a, _) => (p.reverse.dropWhile fun c => !(c == '/')).reverse ++ a
      | none => p
    else
      match splitFirst ';' p with
      | some (a, _) => a
      | none => p
  else p

/-- The continuation of `urlsplit` once the netloc has been taken: the
bracket validity check, then fragment and query splitting. -/
def urlsplitAfterNetloc (scheme netloc r3 : List Char) : Except String UrlParts :=
  if (netloc.contains '[' != netloc.contains ']') then Except.error "Invalid IPv6 URL"
  else
    Except.ok ⟨scheme, netloc,
      (fragQuerySplit r3).1, (fragQuerySplit r3).2.1, (fragQuerySplit r3).2.2⟩

/-- The continuation of `urlsplit` once the scheme has been split off:
netloc recognition behind a leading `//`. -/
def urlsplitRest (scheme rest : List Char) : Except String UrlParts :=
  match rest with
  | '/' :: '/' :: r2 =>
    urlsplitAfterNetloc scheme (netlocTake r2).1 (netlocTake r2).2
  | _ =>
    Except.ok ⟨scheme, [],
      (fragQuerySplit rest).1, (fragQuerySplit rest).2.1, (fragQuerySplit rest).2.2⟩

/-- Model of `urllib.parse.urlsplit`.  The modelled raising path is the
"Invalid IPv6 URL" `ValueError` for a netloc containing exactly one of
`[` and `]`.  CPython has two further raising paths that are not modelled
(see the file header): `_checknetloc`, which can raise only for a netloc
containing a non-ASCII character, and `_check_bracketed_host`, which can
raise only when '[' occurs in the netloc.  On inputs that are all-ASCII
and bracket-free, this model therefore succeeds exactly when CPython
does. -/
def urlsplitL (url : List Char) : Except String UrlParts :=
  urlsplitRest (schemeSplit (preprocess url)).1 (schemeSplit (preprocess url)).2

/-- Model of `urllib.parse.urlparse`: `urlsplit` plus params removal from
the path. -/
def urlparseL (url : List Char) : Except String UrlParts :=
  (urlsplitL url).map fun r => { r with path := splitParams r.path }

def urlparse (s : String) : Except String UrlParts :=
  urlparseL s.data

/-! ### The crawler's URL functions (same code in all three variants) -/

/-- The f-string rebuild in `normalize_url`:
`f"{parsed.scheme}://{parsed.netloc}{parsed.path}"` plus
`"?" + parsed.query` when the query is non-empty. -/
def rebuildL (r : UrlParts) : List Char :=
  r.scheme ++ ':' :: '/' :: '/' :: (r.netloc ++ r.path ++ (if r.query.isEmpty then [] else '?' :: r.query))

/-- Model of `PageCrawler.normalize_url` (crawl.py lines 61-67; identical in
crawl_pages.py and spa_crawl.py).  `domain` is `self.domain`.  The
function body has no try/except, so a parse failure propagates as the
`Except.error` case. -/
def normalize_url (domain : String) (url : String) : Except String String :=
  (urlparse url).map fun r =>
    let out := rstripSlashes (rebuildL r)
    if out.isEmpty then domain else String.mk out

/-- Model of `PageCrawler.is_same_domain`: netloc equality of `url` and
`self.domain`, with a bare `except:` returning `False`. -/
def is_same_domain (domain url : String) : Bool :=
  match urlparse url, urlparse domain with
  | Except.ok a, Except.ok b => a.netloc == b.netloc
  | _, _ => false

/-- Contents of the `skip_extensions` tuple of `is_valid_page_url`, verbatim. -/
def skip_extensions : List String :=
  [".pdf", ".zip", ".tar", ".gz", ".rar",
   ".jpg", ".jpeg", ".png", ".gif", ".svg", ".webp", ".ico",
   ".mp3", ".mp4", ".avi", ".mov", ".wmv",
   ".doc", ".docx", ".xls", ".xlsx", ".ppt", ".pptx",
   ".css", ".js", ".json", ".xml"]

/-- Model of `PageCrawler.is_valid_page_url` (crawl.py lines 69-80, spa_crawl.py
lines 70-81): true iff the lower-cased path does not end with one of the
`skip_extensions`.  No try/except, so a parse failure propagates. -/
def is_valid_page_url (url : String) : Except String Bool :=
  (urlparse url).map fun r =>
    let pl := r.path.map asciiLower
    !(skip_extensions.any fun e => e.data.isSuffixOf pl)

/-! ### The crawl loop -/

/-- One emitted row: the dict appended to `self.results`. -/
structure PageRecord where
  url : String
  title : String
  description : String
deriving DecidableEq

/-- Outcome of handing one URL to the fetch backend: a successful response
(declared content type, extracted title and meta description, and the
document-order list of absolute link URLs produced by `urljoin`), a
timeout, or any other request/`goto` failure. -/
inductive FetchOutcome where
  | ok (contentType title description : String) (links : List String)
  | timeout
  | failed
deriving DecidableEq

/-- The mutable crawl state: `self.visited`, `self.to_visit`,
`self.results`, plus a flag recording that an exception escaped the loop
(in the scripts it propagates to `main`). -/
structure CrawlState where
  visited : List String
  to_visit : List String
  results : List PageRecord
  aborted : Bool
deriving DecidableEq

/-- The link loop of crawl.py (lines 160-167) and spa_crawl.py (lines
223-230): each absolute link is normalized and, when in-domain, crawlable,
unvisited and not yet queued, the NORMALIZED link is appended.  A
`ValueError` from `normalize_url` or `is_valid_page_url` is caught by the
surrounding `except Exception`, abandoning the remaining links. -/
def processLinksSimple (domain : String) (visited : List String) : List String → List String → List String
  | queue, [] => queue
  | queue, link :: rest =>
    match normalize_url domain link with
    | Except.error _ => queue
    | Except.ok nl =>
      if is_same_domain domain nl then
        match is_valid_page_url nl with
        | Except.error _ => queue
        | Except.ok true =>
          if nl ∉ visited ∧ nl ∉ queue then
            processLinksSimple domain visited (queue ++ [nl]) rest
          else processLinksSimple domain visited queue rest
        | Except.ok false => processLinksSimple domain visited queue rest
      else processLinksSimple domain visited queue rest

/-- The link loop of crawl_pages.py (lines 114-123): the dedup test is on
the NORMALIZED link but the RAW absolute URL is what gets appended. -/
def processLinksPages (domain : String) (visited : List String) : List String → List String → List String
  | queue, [] => queue
  | queue, link :: rest =>
    match normalize_url domain link with
    | Except.error _ => queue
    | Except.ok nl =>
      if is_same_domain domain nl ∧ nl ∉ visited ∧ nl ∉ queue then
        processLinksPages domain visited (queue ++ [link]) rest
      else processLinksPages domain visited queue rest

/-- One iteration of `PageCrawler.crawl` in crawl.py (lines 115-180):
pop, re-normalize (outside the try, so a parse failure aborts the run),
skip if visited / out-of-domain / blocked extension, mark visited, fetch,
apply the text/html content-type gate, record, and enqueue links.
`domain` is `self.domain`. -/
def stepSimple (env : String → FetchOutcome) (domain : String) (s : CrawlState) : CrawlState :=
  if s.aborted then s
  else
    match s.to_visit with
    | [] => s
    | url :: rest =>
      match normalize_url domain url with
      | Except.error _ => { s with to_visit := rest, aborted := true }
      | Except.ok nu =>
        if nu ∈ s.visited then { s with to_visit := rest }
        else if !(is_same_domain domain nu) then { s with to_visit := rest }
        else
          match is_valid_page_url nu with
          | Except.error _ => { s with to_visit := rest, aborted := true }
          | Except.ok false => { s with to_visit := rest }
          | Except.ok true =>
            match env nu with
            | FetchOutcome.timeout => { s with to_visit := rest, visited := nu :: s.visited }
            | FetchOutcome.failed => { s with to_visit := rest, visited := nu :: s.visited }
            | FetchOutcome.ok ct title desc links =>
              if !(hasSub ct.data "text/html".data) then
                { s with to_visit := rest, visited := nu :: s.visited }
              else
                { visited := nu :: s.visited,
                  to_visit := processLinksSimple domain (nu :: s.visited) rest links,
                  results := s.results ++ [⟨nu, title, desc⟩],
                  aborted := s.aborted }

/-- One iteration of `PageCrawler.crawl` in crawl_pages.py (lines 79-133):
like crawl.py but with no extension filter and no content-type gate, and
with raw absolute URLs enqueued. -/
def stepPages (env : String → FetchOutcome) (domain : String) (s : CrawlState) : CrawlState :=
  if s.aborted then s
  else
    match s.to_visit with
    | [] => s
    | url :: rest =>
      match normalize_url domain url with
      | Except.error _ => { s with to_visit := rest, aborted := true }
      | Except.ok nu =>
        if nu ∈ s.visited then { s with to_visit := rest }
        else if !(is_same_domain domain nu) then { s with to_visit := rest }
        else
          match env nu with
          | FetchOutcome.timeout => { s with to_visit := rest, visited := nu :: s.visited }
          | FetchOutcome.failed => { s with to_visit := rest, visited := nu :: s.visited }
          | FetchOutcome.ok _ title desc links =>
            { visited := nu :: s.visited,
              to_visit := processLinksPages domain (nu :: s.visited) rest links,
              results := s.results ++ [⟨nu, title, desc⟩],
              aborted := s.aborted }

/-- One iteration of `PageCrawler.crawl` in spa_crawl.py (lines 184-240):
like crawl.py but with no content-type gate (the browser renders whatever
it gets). -/
def stepSpa (env : String → FetchOutcome) (domain : String) (s : CrawlState) : CrawlState :=
  if s.aborted then s
  else
    match s.to_visit with
    | [] => s
    | url :: rest =>
      match normalize_url domain url with
      | Except.error _ => { s with to_visit := rest, aborted := true }
      | Except.ok nu =>
        if nu ∈ s.visited then { s with to_visit := rest }
        else if !(is_same_domain domain nu) then { s with to_visit := rest }
        else
          match is_valid_page_url nu with
          | Except.error _ => { s with to_visit := rest, aborted := true }
          | Except.ok false => { s with to_visit := rest }
          | Except.ok true =>
            match env nu with
            | FetchOutcome.timeout => { s with to_visit := rest, visited := nu :: s.visited }
            | FetchOutcome.failed => { s with to_visit := rest, visited := nu :: s.visited }
            | FetchOutcome.ok _ title desc links =>
              { visited := nu :: s.visited,
                to_visit := processLinksSimple domain (nu :: s.visited) rest links,
                results := s.results ++ [⟨nu, title, desc⟩],
                aborted := s.aborted }

/-- Value of `self.domain` as stored by `__init__`: the raw argument with
all trailing slashes stripped. -/
def initDomain (rawDomain : String) : String :=
  String.mk (rstripSlashes rawDomain.data)

/-- The crawler state right after `__init__`: the queue holds the stored
domain as its single seed. -/
def initState (rawDomain : String) : CrawlState :=
  ⟨[], [initDomain rawDomain], [], false⟩

/-- The state after `n` loop iterations of crawl.py's `crawl`. -/
def crawlSimpleN (env : String → FetchOutcome) (rawDomain : String) : Nat → CrawlState
  | 0 => initState rawDomain
  | n + 1 => stepSimple env (initDomain rawDomain) (crawlSimpleN env rawDomain n)

/-- The state after `n` loop iterations of crawl_pages.py's `crawl`. -/
def crawlPagesN (env : String → FetchOutcome) (rawDomain : String) : Nat → CrawlState
  | 0 => initState rawDomain
  | n + 1 => stepPages env (initDomain rawDomain) (crawlPagesN env rawDomain n)

/-- The state after `n` loop iterations of spa_crawl.py's `crawl`. -/
def crawlSpaN (env : String → FetchOutcome) (rawDomain : String) : Nat → CrawlState
  | 0 => initState rawDomain
  | n + 1 => stepSpa env (initDomain rawDomain) (crawlSpaN env rawDomain n)

/-! ### The result sink -/

/-- What `save_to_csv` does to the output target. -/
inductive SaveOutcome where
  | noResults
  | wrote (rows : List (List String))
deriving DecidableEq

/-- Model of `save_to_csv` of crawl.py (lines 185-194) and spa_crawl.py (lines
248-257): with zero records it prints "No results to save" and returns
without touching the output file; otherwise it writes the header row and
one row per record, in list order. -/
def save_to_csv (results : List PageRecord) : SaveOutcome :=
  if results.isEmpty then SaveOutcome.noResults
  else SaveOutcome.wrote (["url", "title", "description"] :: results.map fun r => [r.url, r.title, r.description])

/-- Model of `save_to_csv` of crawl_pages.py (lines 138-145): no emptiness check,
the header row is always written. -/
def save_to_csv_pages (results : List PageRecord) : List (List String) :=
  ["url", "title", "description"] :: results.map fun r => [r.url, r.title, r.description]


/-! ### Splitting-function inversion lemmas -/

theorem splitFirst_eq_some {c : Char} {l x y : List Char}
    (h : splitFirst c l = some (x, y)) : l = x ++ c :: y ∧ c ∉ x := by
  induction l generalizing x y with
  | nil => simp [splitFirst] at h
  | cons a t ih =>
    by_cases hac : a = c
    · subst hac
      simp [splitFirst] at h
      obtain ⟨rfl, rfl⟩ := h
      simp
    · simp [splitFirst, hac] at h
      match hs : splitFirst c t with
      | none => rw [hs] at h; simp at h
      | some (x', y') =>
        rw [hs] at h
        simp at h
        obtain ⟨rfl, rfl⟩ := h
        obtain ⟨rfl, hnx⟩ := ih hs
        refine ⟨by simp, ?_⟩
        simp [hnx]
        exact fun he => hac he.symm

theorem splitFirst_of_not_mem {c : Char} {l : List Char} (h : c ∉ l) :
    splitFirst c l = none := by
  induction l with
  | nil => rfl
  | cons a t ih =>
    simp at h
    have hac : ¬ a = c := fun he => h.1 he.symm
    simp [splitFirst, hac, ih h.2]

theorem splitFirst_append {c : Char} {x y : List Char} (h : c ∉ x) :
    splitFirst c (x ++ c :: y) = some (x, y) := by
  induction x with
  | nil => simp [splitFirst]
  | cons a t ih =>
    simp at h
    have hac : ¬ a = c := fun he => h.1 he.symm
    simp [splitFirst, hac, ih h.2]

-- netlocTake lemmas
theorem netlocTake_eq {l x y : List Char} (h : netlocTake l = (x, y)) :
    l = x ++ y ∧ (∀ a ∈ x, isNetlocDelim a = false) ∧
      (y = [] ∨ ∃ d t, y = d :: t ∧ isNetlocDelim d = true) := by
  induction l generalizing x y with
  | nil =>
    simp [netlocTake] at h
    obtain ⟨rfl, rfl⟩ := h
    simp
  | cons a t ih =>
    by_cases hd : isNetlocDelim a
    · simp [netlocTake, hd] at h
      obtain ⟨rfl, rfl⟩ := h
      exact ⟨rfl, by simp, Or.inr ⟨a, t, rfl, hd⟩⟩
    · simp [netlocTake, hd] at h
      match ht : netlocTake t with
      | (x', y') =>
        rw [ht] at h
        simp at h
        obtain ⟨rfl, rfl⟩ := h
        obtain ⟨rfl, h2, h3⟩ := ih ht
        refine ⟨by simp, ?_, h3⟩
        intro b hb
        rcases List.mem_cons.mp hb with rfl | hb
        · exact Bool.eq_false_iff.mpr hd
        · exact h2 b hb

theorem netlocTake_append {n t : List Char}
    (hn : ∀ a ∈ n, isNetlocDelim a = false)
    (ht : t = [] ∨ ∃ d t', t = d :: t' ∧ isNetlocDelim d = true) :
    netlocTake (n ++ t) = (n, t) := by
  induction n with
  | nil =>
    cases ht with
    | inl h => subst h; rfl
    | inr h =>
      obtain ⟨d, t', rfl, hd⟩ := h
      simp [netlocTake, hd]
  | cons a m ih =>
    have ha : isNetlocDelim a = false := hn a (by simp)
    simp [netlocTake, ha, ih (fun b hb => hn b (by simp [hb]))]

-- rstripSlashes lemmas
theorem rstripSlashes_append (a b : List Char) :
    rstripSlashes (a ++ b) =
      if rstripSlashes b = [] then rstripSlashes a else a ++ rstripSlashes b := by
  unfold rstripSlashes
  rw [List.reverse_append, List.dropWhile_append]
  by_cases hb : (b.reverse.dropWhile fun c => c == '/') = []
  · simp [hb]
  · simp [hb, List.isEmpty_iff]

theorem rstripSlashes_eq_nil_iff {l : List Char} :
    rstripSlashes l = [] ↔ ∀ c ∈ l, c = '/' := by
  unfold rstripSlashes
  rw [List.reverse_eq_nil_iff, List.dropWhile_eq_nil_iff]
  constructor
  · intro h c hc
    have := h c (List.mem_reverse.mpr hc)
    simpa using this
  · intro h c hc
    simp [h c (List.mem_reverse.mp hc)]

theorem rstripSlashes_concat_ne {l : List Char} {c : Char} (h : ¬ c = '/') :
    rstripSlashes (l ++ [c]) = l ++ [c] := by
  unfold rstripSlashes
  simp [List.dropWhile_cons, h]

theorem rstripSlashes_subset {l : List Char} : ∀ c ∈ rstripSlashes l, c ∈ l := by
  intro c hc
  unfold rstripSlashes at hc
  rw [List.mem_reverse] at hc
  exact List.mem_reverse.mp ((List.dropWhile_sublist _).mem hc)

theorem rstripSlashes_getLast_ne {l : List Char} (h : rstripSlashes l ≠ []) :
    ∃ m c, rstripSlashes l = m ++ [c] ∧ ¬ c = '/' := by
  unfold rstripSlashes at *
  match hd : l.reverse.dropWhile fun c => c == '/' with
  | [] => rw [hd] at h; simp at h
  | a :: t =>
    have ha : ¬ (a == '/') = true := by
      have := List.head?_dropWhile_not (fun c => c == '/') l.reverse
      rw [hd] at this
      simpa using this
    refine ⟨t.reverse, a, by simp [hd], by simpa using ha⟩

/-! ### Scheme-character facts -/

/-- Bool bundle of every fact about a scheme character that the
round-trip argument needs. -/
def schemeCharFacts (c : Char) : Bool :=
  isSchemeChar (asciiLower c) && (asciiLower (asciiLower c) == asciiLower c) &&
  (!c.isAlpha || (asciiLower c).isAlpha) &&
  (c != ':') && (isNetlocDelim c == false) && (c != '[') && (c != ']') &&
  (c != '\t') && (c != '\r') && (c != '\n') && !(decide (c.toNat ≤ 32))

theorem mem_of_isSchemeChar {c : Char} (h : isSchemeChar c = true) : c ∈ schemeChars := by
  unfold isSchemeChar at h
  exact List.elem_iff.mp h

theorem schemeChars_facts_all : schemeChars.all schemeCharFacts = true := by decide

theorem schemeChar_facts {c : Char} (h : isSchemeChar c = true) : schemeCharFacts c = true :=
  List.all_eq_true.mp schemeChars_facts_all c (mem_of_isSchemeChar h)

/-- Every fact about a scheme character that the round-trip argument
needs, in propositional form. -/
theorem schemeChar_props {c : Char} (h : isSchemeChar c = true) :
    isSchemeChar (asciiLower c) = true ∧ asciiLower (asciiLower c) = asciiLower c ∧
    (c.isAlpha = true → (asciiLower c).isAlpha = true) ∧ ¬ c = ':' ∧
    isNetlocDelim c = false ∧ ¬ c = '[' ∧ ¬ c = ']' ∧
    ¬ c = '\t' ∧ ¬ c = '\r' ∧ ¬ c = '\n' ∧ ¬ c.toNat ≤ 32 := by
  have hf := schemeChar_facts h
  unfold schemeCharFacts at hf
  simp at hf
  obtain ⟨⟨⟨⟨⟨⟨⟨⟨⟨⟨h1, h2⟩, h3⟩, h4⟩, h5⟩, h6⟩, h7⟩, h8⟩, h9⟩, h10⟩, h11⟩ := hf
  refine ⟨h1, h2, ?_, h4, h5, h6, h7, h8, h9, h10, by omega⟩
  intro ha
  rcases h3 with h3 | h3
  · rw [ha] at h3; cases h3
  · exact h3


/-! ### Parser well-formedness -/

theorem splitFirst_eq_none {c : Char} {l : List Char} (h : splitFirst c l = none) : c ∉ l := by
  induction l with
  | nil => simp
  | cons a t ih =>
    by_cases hac : a = c
    · subst hac; simp [splitFirst] at h
    · simp [splitFirst, hac] at h
      match hs : splitFirst c t with
      | some (x, y) => rw [hs] at h; simp at h
      | none =>
        simp [List.mem_cons]
        exact ⟨fun he => hac he.symm, ih hs⟩

theorem preprocess_subset {l : List Char} : ∀ c ∈ preprocess l, c ∈ l := by
  intro c hc
  unfold preprocess at hc
  exact (List.dropWhile_sublist _).mem ((List.filter_sublist _).mem hc)

theorem preprocess_no_ctl {l : List Char} :
    ∀ c ∈ preprocess l, ¬ c = '\t' ∧ ¬ c = '\r' ∧ ¬ c = '\n' := by
  intro c hc
  unfold preprocess at hc
  have := List.of_mem_filter hc
  simp at this
  obtain ⟨⟨h1, h2⟩, h3⟩ := this
  exact ⟨h1, h2, h3⟩

/-! ### Scheme-character facts -/

theorem schemeSplit_inv {u s r1 : List Char} (h : schemeSplit u = (s, r1)) :
    s.all isSchemeChar = true ∧ s.map asciiLower = s ∧
      (∀ c cs, s = c :: cs → c.isAlpha = true) ∧ (∀ c ∈ r1, c ∈ u) ∧
      (s = [] → r1 = u) ∧ (s ≠ [] → ∃ b, u = b ++ ':' :: r1 ∧ s = b.map asciiLower) := by
  unfold schemeSplit at h
  split at h
  case h_2 =>
    obtain ⟨h1, h2⟩ := Prod.mk.inj h
    subst h1; subst h2
    refine ⟨rfl, rfl, ?_, fun c hc => hc, fun _ => rfl, fun hne => absurd rfl hne⟩
    intro c cs hc
    cases hc
  case h_1 b after heq =>
    split at h
    case h_1 =>
      obtain ⟨h1, h2⟩ := Prod.mk.inj h
      subst h1; subst h2
      refine ⟨rfl, rfl, ?_, fun c hc => hc, fun _ => rfl, fun hne => absurd rfl hne⟩
      intro c cs hc
      cases hc
    case h_2 c cs =>
      split at h
      case isTrue hg =>
        obtain ⟨h1, h2⟩ := Prod.mk.inj h
        subst h1; subst h2
        simp only [Bool.and_eq_true] at hg
        obtain ⟨hu, hnc⟩ := splitFirst_eq_some heq
        refine ⟨?_, ?_, ?_, ?_, ?_, ?_⟩
        · rw [List.all_eq_true]
          intro x hx
          rw [List.mem_map] at hx
          obtain ⟨y, hy, rfl⟩ := hx
          exact (schemeChar_props (List.all_eq_true.mp hg.2 y hy)).1
        · rw [List.map_map]
          apply List.map_congr_left
          intro a ha
          exact (schemeChar_props (List.all_eq_true.mp hg.2 a ha)).2.1
        · intro x xs hx
          rw [List.map_cons] at hx
          obtain ⟨rfl, -⟩ := List.cons.inj hx
          exact (schemeChar_props (List.all_eq_true.mp hg.2 c (by simp))).2.2.1 hg.1
        · intro x hx
          rw [hu]
          simp [hx]
        · intro hnil
          exact absurd hnil (by simp)
        · intro _
          exact ⟨c :: cs, hu, rfl⟩
      case isFalse hg =>
        obtain ⟨h1, h2⟩ := Prod.mk.inj h
        subst h1; subst h2
        refine ⟨rfl, rfl, ?_, fun c' hc => hc, fun _ => rfl, fun hne => absurd rfl hne⟩
        intro c' cs' hc
        cases hc


theorem fragQuerySplit_inv {l p q f : List Char} (h : fragQuerySplit l = (p, q, f)) :
    '#' ∉ p ∧ '?' ∉ p ∧ '#' ∉ q ∧ (∃ t, l = p ++ t) ∧ (∀ c ∈ q, c ∈ l) := by
  unfold fragQuerySplit at h
  split at h
  case h_1 a fr heq1 =>
    obtain ⟨hl1, hna⟩ := splitFirst_eq_some heq1
    split at h
    case h_1 p0 q0 heq2 =>
      obtain ⟨ha, hnp⟩ := splitFirst_eq_some heq2
      obtain ⟨rfl, h2⟩ := Prod.mk.inj h
      obtain ⟨rfl, rfl⟩ := Prod.mk.inj h2
      refine ⟨?_, hnp, ?_, ⟨'?' :: q0 ++ '#' :: fr, by rw [hl1, ha]; simp⟩, ?_⟩
      · intro hc
        exact hna (ha ▸ List.mem_append_left _ hc)
      · intro hc
        exact hna (ha ▸ by simp [hc])
      · intro c hc
        rw [hl1, ha]
        simp [hc]
    case h_2 heq2 =>
      obtain ⟨rfl, h2⟩ := Prod.mk.inj h
      obtain ⟨rfl, rfl⟩ := Prod.mk.inj h2
      exact ⟨hna, splitFirst_eq_none heq2, by simp, ⟨'#' :: fr, hl1⟩, by simp⟩
  case h_2 heq1 =>
    have hnh := splitFirst_eq_none heq1
    split at h
    case h_1 p0 q0 heq2 =>
      obtain ⟨ha, hnp⟩ := splitFirst_eq_some heq2
      obtain ⟨rfl, h2⟩ := Prod.mk.inj h
      obtain ⟨rfl, rfl⟩ := Prod.mk.inj h2
      refine ⟨?_, hnp, ?_, ⟨'?' :: q0, ha⟩, ?_⟩
      · intro hc
        exact hnh (ha ▸ List.mem_append_left _ hc)
      · intro hc
        exact hnh (ha ▸ by simp [hc])
      · intro c hc
        rw [ha]
        simp [hc]
    case h_2 heq2 =>
      obtain ⟨rfl, h2⟩ := Prod.mk.inj h
      obtain ⟨rfl, rfl⟩ := Prod.mk.inj h2
      exact ⟨hnh, splitFirst_eq_none heq2, by simp, ⟨[], by simp⟩, by simp⟩

theorem splitParams_append (p : List Char) : ∃ t, p = splitParams p ++ t := by
  unfold splitParams
  split
  case isTrue =>
    split
    case isTrue =>
      split
      case h_1 a y heq =>
        obtain ⟨hseg, -⟩ := splitFirst_eq_some heq
        refine ⟨';' :: y, ?_⟩
        have hp : p = (p.reverse.dropWhile fun c => !(c == '/')).reverse ++
            (p.reverse.takeWhile fun c => !(c == '/')).reverse := by
          rw [← List.reverse_append, List.takeWhile_append_dropWhile, List.reverse_reverse]
        rw [List.append_assoc, ← hseg, ← hp]
      case h_2 => exact ⟨[], by simp⟩
    case isFalse =>
      split
      case h_1 a y heq =>
        obtain ⟨hseg, -⟩ := splitFirst_eq_some heq
        exact ⟨';' :: y, hseg⟩
      case h_2 => exact ⟨[], by simp⟩
  case isFalse => exact ⟨[], by simp⟩

theorem splitParams_eq_self {p : List Char} (h : ';' ∉ p) : splitParams p = p := by
  unfold splitParams
  rw [if_neg]
  intro hc
  exact h (List.elem_iff.mp hc)

theorem splitParams_subset {p : List Char} : ∀ c ∈ splitParams p, c ∈ p := by
  obtain ⟨t, ht⟩ := splitParams_append p
  intro c hc
  rw [ht]
  exact List.mem_append_left _ hc

theorem splitParams_slash {p : List Char} (h : p = [] ∨ ∃ t, p = '/' :: t) :
    splitParams p = [] ∨ ∃ t, splitParams p = '/' :: t := by
  obtain ⟨t, ht⟩ := splitParams_append p
  match hs : splitParams p with
  | [] => exact Or.inl rfl
  | c :: m =>
    right
    rcases h with rfl | ⟨t', ht'⟩
    · rw [hs] at ht; simp at ht
    · rw [hs, ht'] at ht
      obtain ⟨rfl, -⟩ := List.cons.inj ht
      exact ⟨m, rfl⟩

/-- Everything the round-trip argument needs to know about a successful
parse result. -/
structure PartsWF (r : UrlParts) : Prop where
  schemeAll : r.scheme.all isSchemeChar = true
  schemeLower : r.scheme.map asciiLower = r.scheme
  schemeHead : ∀ c cs, r.scheme = c :: cs → c.isAlpha = true
  netlocNoDelim : ∀ c ∈ r.netloc, isNetlocDelim c = false
  netlocBalanced : r.netloc.contains '[' = r.netloc.contains ']'
  pathNoQ : '?' ∉ r.path
  pathNoH : '#' ∉ r.path
  pathSlash : r.netloc ≠ [] → r.path = [] ∨ ∃ t, r.path = '/' :: t
  queryNoH : '#' ∉ r.query
  netlocNoCtl : ∀ c ∈ r.netloc, ¬ c = '\t' ∧ ¬ c = '\r' ∧ ¬ c = '\n'
  pathNoCtl : ∀ c ∈ r.path, ¬ c = '\t' ∧ ¬ c = '\r' ∧ ¬ c = '\n'
  queryNoCtl : ∀ c ∈ r.query, ¬ c = '\t' ∧ ¬ c = '\r' ∧ ¬ c = '\n'

theorem urlsplitL_ok_inv {l : List Char} {r : UrlParts} (h : urlsplitL l = Except.ok r) :
    PartsWF r ∧ (∀ c ∈ r.netloc, c ∈ l) := by
  unfold urlsplitL at h
  have hS : schemeSplit (preprocess l) =
      ((schemeSplit (preprocess l)).1, (schemeSplit (preprocess l)).2) := rfl
  obtain ⟨hsAll, hsLow, hsHead, hsub, -, -⟩ := schemeSplit_inv hS
  unfold urlsplitRest at h
  split at h
  case h_1 r2 heqR =>
    have hN : netlocTake r2 = ((netlocTake r2).1, (netlocTake r2).2) := rfl
    obtain ⟨hr2, hnd, hr3⟩ := netlocTake_eq hN
    unfold urlsplitAfterNetloc at h
    split at h
    case isTrue => cases h
    case isFalse hbr =>
      have hF : fragQuerySplit (netlocTake r2).2 =
          ((fragQuerySplit (netlocTake r2).2).1, (fragQuerySplit (netlocTake r2).2).2.1,
            (fragQuerySplit (netlocTake r2).2).2.2) := rfl
      obtain ⟨hp1, hp2, hq1, ⟨tp, htp⟩, hqsub⟩ := fragQuerySplit_inv hF
      have hXr : (⟨(schemeSplit (preprocess l)).1, (netlocTake r2).1,
          (fragQuerySplit (netlocTake r2).2).1, (fragQuerySplit (netlocTake r2).2).2.1,
          (fragQuerySplit (netlocTake r2).2).2.2⟩ : UrlParts) = r := Except.ok.inj h
      subst hXr
      have hmemN : ∀ c ∈ (netlocTake r2).1, c ∈ preprocess l := by
        intro c hc
        apply hsub c
        rw [heqR, hr2]
        simp [hc]
      have hmemP : ∀ c ∈ (fragQuerySplit (netlocTake r2).2).1, c ∈ preprocess l := by
        intro c hc
        apply hsub c
        rw [heqR, hr2, htp]
        simp [hc]
      have hmemQ : ∀ c ∈ (fragQuerySplit (netlocTake r2).2).2.1, c ∈ preprocess l := by
        intro c hc
        apply hsub c
        rw [heqR, hr2]
        simp [hqsub c hc]
      refine ⟨⟨hsAll, hsLow, hsHead, hnd, by simpa using hbr, hp2, hp1, ?_, hq1,
        fun c hc => preprocess_no_ctl c (hmemN c hc),
        fun c hc => preprocess_no_ctl c (hmemP c hc),
        fun c hc => preprocess_no_ctl c (hmemQ c hc)⟩,
        fun c hc => preprocess_subset c (hmemN c hc)⟩
      intro hne
      match hpm : (fragQuerySplit (netlocTake r2).2).1 with
      | [] => exact Or.inl rfl
      | c :: m =>
        right
        rw [hpm] at htp
        rcases hr3 with h3 | ⟨d, t, h3, hdel⟩
        · rw [h3] at htp; simp at htp
        · rw [h3] at htp
          obtain ⟨h4, -⟩ := List.cons.inj htp
          have hdc : isNetlocDelim c = true := h4 ▸ hdel
          have : c = '/' ∨ c = '?' ∨ c = '#' := by
            unfold isNetlocDelim at hdc
            simp at hdc
            tauto
          rcases this with rfl | rfl | rfl
          · exact ⟨m, rfl⟩
          · rw [hpm] at hp2; simp at hp2
          · rw [hpm] at hp1; simp at hp1
  case h_2 =>
    have hF : fragQuerySplit (schemeSplit (preprocess l)).2 =
        ((fragQuerySplit (schemeSplit (preprocess l)).2).1,
          (fragQuerySplit (schemeSplit (preprocess l)).2).2.1,
          (fragQuerySplit (schemeSplit (preprocess l)).2).2.2) := rfl
    obtain ⟨hp1, hp2, hq1, ⟨tp, htp⟩, hqsub⟩ := fragQuerySplit_inv hF
    have hXr : (⟨(schemeSplit (preprocess l)).1, [],
        (fragQuerySplit (schemeSplit (preprocess l)).2).1,
        (fragQuerySplit (schemeSplit (preprocess l)).2).2.1,
        (fragQuerySplit (schemeSplit (preprocess l)).2).2.2⟩ : UrlParts) = r := Except.ok.inj h
    subst hXr
    have hmemP : ∀ c ∈ (fragQuerySplit (schemeSplit (preprocess l)).2).1, c ∈ preprocess l := by
      intro c hc
      apply hsub c
      rw [htp]
      exact List.mem_append_left _ hc
    have hmemQ : ∀ c ∈ (fragQuerySplit (schemeSplit (preprocess l)).2).2.1, c ∈ preprocess l :=
      fun c hc => hsub c (hqsub c hc)
    exact ⟨⟨hsAll, hsLow, hsHead, by simp, by simp, hp2, hp1,
      fun hne => absurd rfl hne, hq1, by simp,
      fun c hc => preprocess_no_ctl c (hmemP c hc),
      fun c hc => preprocess_no_ctl c (hmemQ c hc)⟩, by simp⟩

/-- Well-formedness of a successful `urlparse`: the split-level facts
survive params removal. -/
theorem urlparseL_ok_inv {l : List Char} {r : UrlParts} (h : urlparseL l = Except.ok r) :
    PartsWF r ∧ (∀ c ∈ r.netloc, c ∈ l) := by
  unfold urlparseL at h
  match hs : urlsplitL l with
  | Except.error e => rw [hs] at h; cases h
  | Except.ok r0 =>
    rw [hs] at h
    have hXr : ({ r0 with path := splitParams r0.path } : UrlParts) = r := Except.ok.inj h
    subst hXr
    obtain ⟨wf, hnet⟩ := urlsplitL_ok_inv hs
    refine ⟨⟨wf.schemeAll, wf.schemeLower, wf.schemeHead, wf.netlocNoDelim, wf.netlocBalanced,
      ?_, ?_, ?_, wf.queryNoH, wf.netlocNoCtl, ?_, wf.queryNoCtl⟩, hnet⟩
    · intro hc
      exact wf.pathNoQ (splitParams_subset _ hc)
    · intro hc
      exact wf.pathNoH (splitParams_subset _ hc)
    · intro hne
      exact splitParams_slash (wf.pathSlash hne)
    · intro c hc
      exact wf.pathNoCtl c (splitParams_subset _ hc)


/-! ### Forward computation lemmas for re-parsing a normalized URL -/

theorem rstripSlashes_idem (l : List Char) :
    rstripSlashes (rstripSlashes l) = rstripSlashes l := by
  match hs : rstripSlashes l with
  | [] => rfl
  | c :: m =>
    obtain ⟨m', c', hmc, hne⟩ := rstripSlashes_getLast_ne (l := l) (by rw [hs]; simp)
    rw [← hs, hmc]
    exact rstripSlashes_concat_ne hne

theorem rstripSlashes_append_exists (l : List Char) : ∃ t, l = rstripSlashes l ++ t := by
  refine ⟨(l.reverse.takeWhile fun c => c == '/').reverse, ?_⟩
  unfold rstripSlashes
  rw [← List.reverse_append, List.takeWhile_append_dropWhile]
  simp

theorem rstripSlashes_ne_nil_of_mem {l : List Char} {c : Char} (hc : c ∈ l) (hne : ¬ c = '/') :
    rstripSlashes l ≠ [] := by
  intro h
  exact hne (rstripSlashes_eq_nil_iff.mp h c hc)

theorem rstripSlashes_slash_head {l : List Char} {t0 : List Char} (h : l = '/' :: t0) :
    rstripSlashes l = [] ∨ ∃ t, rstripSlashes l = '/' :: t := by
  obtain ⟨t, ht⟩ := rstripSlashes_append_exists l
  match hs : rstripSlashes l with
  | [] => exact Or.inl rfl
  | c :: m =>
    right
    rw [hs] at ht
    rw [h] at ht
    obtain ⟨rfl, -⟩ := List.cons.inj ht
    exact ⟨m, rfl⟩

theorem preprocess_eq_self {l : List Char}
    (h1 : ∀ c ∈ l, ¬ c = '\t' ∧ ¬ c = '\r' ∧ ¬ c = '\n')
    (h2 : l = [] ∨ ∃ c t, l = c :: t ∧ ¬ c.toNat ≤ 32) :
    preprocess l = l := by
  unfold preprocess
  have hfil : ∀ m : List Char, (∀ c ∈ m, ¬ c = '\t' ∧ ¬ c = '\r' ∧ ¬ c = '\n') →
      (m.filter fun c => !(c == '\t' || c == '\r' || c == '\n')) = m := by
    intro m hm
    rw [List.filter_eq_self]
    intro a ha
    obtain ⟨x1, x2, x3⟩ := hm a ha
    simp [x1, x2, x3]
  rcases h2 with rfl | ⟨c, t, rfl, hc⟩
  · simp
  · rw [List.dropWhile_cons, if_neg (by simpa using hc)]
    exact hfil _ h1

theorem scheme_not_special {s : List Char} (hall : s.all isSchemeChar = true) :
    ∀ c ∈ s, ¬ c = ':' ∧ isNetlocDelim c = false ∧
      (¬ c = '\t' ∧ ¬ c = '\r' ∧ ¬ c = '\n') ∧ ¬ c.toNat ≤ 32 := by
  intro c hc
  have hp := schemeChar_props (List.all_eq_true.mp hall c hc)
  exact ⟨hp.2.2.2.1, hp.2.2.2.2.1, ⟨hp.2.2.2.2.2.2.2.1, hp.2.2.2.2.2.2.2.2.1,
    hp.2.2.2.2.2.2.2.2.2.1⟩, hp.2.2.2.2.2.2.2.2.2.2⟩

theorem schemeSplit_append {s rest : List Char} (hs : s ≠ [])
    (hall : s.all isSchemeChar = true)
    (hhead : ∀ c cs, s = c :: cs → c.isAlpha = true)
    (hlow : s.map asciiLower = s) :
    schemeSplit (s ++ ':' :: rest) = (s, rest) := by
  have hnc : ':' ∉ s := fun hc => (scheme_not_special hall ':' hc).1 rfl
  unfold schemeSplit
  rw [splitFirst_append hnc]
  match hsm : s with
  | [] => exact absurd rfl hs
  | c :: cs =>
    have hg : (c.isAlpha && (c :: cs).all isSchemeChar) = true := by
      simp only [Bool.and_eq_true]
      exact ⟨hhead c cs rfl, hall⟩
    show (if (c.isAlpha && (c :: cs).all isSchemeChar) = true
        then (List.map asciiLower (c :: cs), rest)
        else ([], c :: cs ++ ':' :: rest)) = (c :: cs, rest)
    rw [if_pos hg, hlow]

theorem fragQuerySplit_no_marks {l : List Char} (h1 : '#' ∉ l) (h2 : '?' ∉ l) :
    fragQuerySplit l = (l, [], []) := by
  unfold fragQuerySplit
  rw [splitFirst_of_not_mem h1, splitFirst_of_not_mem h2]

theorem fragQuerySplit_query {p q : List Char} (h1 : '#' ∉ p) (h2 : '?' ∉ p)
    (h3 : '#' ∉ q) :
    fragQuerySplit (p ++ '?' :: q) = (p, q, []) := by
  have hnh : '#' ∉ p ++ '?' :: q := by
    simp [h1, h3]
  unfold fragQuerySplit
  rw [splitFirst_of_not_mem hnh, splitFirst_append h2]


theorem not_delim_facts {c : Char} (h : isNetlocDelim c = false) :
    ¬ c = '/' ∧ ¬ c = '?' ∧ ¬ c = '#' := by
  unfold isNetlocDelim at h
  simp at h
  tauto

theorem urlsplitRest_slashes (s r2 : List Char) :
    urlsplitRest s ('/' :: '/' :: r2) =
      urlsplitAfterNetloc s (netlocTake r2).1 (netlocTake r2).2 := rfl

theorem urlsplitAfterNetloc_ok {n : List Char} (s : List Char) {r3 p q f : List Char}
    (hbal : n.contains '[' = n.contains ']')
    (hfq : fragQuerySplit r3 = (p, q, f)) :
    urlsplitAfterNetloc s n r3 = Except.ok ⟨s, n, p, q, f⟩ := by
  unfold urlsplitAfterNetloc
  rw [hbal, bne_self_eq_false, hfq]
  rfl

/-- The heart of the idempotence analysis: re-parsing and re-normalizing a
normalized URL is the identity, provided the original parse had a
non-empty scheme and netloc, a semicolon-free path, and a query that is
not a non-empty run of slashes. -/
theorem normalize_roundtrip {r : UrlParts} (wf : PartsWF r) (hs : r.scheme ≠ [])
    (hn : r.netloc ≠ []) (hsemi : ';' ∉ r.path)
    (hq : r.query = [] ∨ rstripSlashes r.query ≠ []) :
    ∃ r' : UrlParts, urlparseL (rstripSlashes (rebuildL r)) = Except.ok r' ∧
      rstripSlashes (rebuildL r') = rstripSlashes (rebuildL r) := by
  obtain ⟨c0, s', hs0⟩ := List.exists_cons_of_ne_nil hs
  have hcnmem : r.netloc.getLast hn ∈ r.netloc := List.getLast_mem hn
  have hcnslash : ¬ r.netloc.getLast hn = '/' :=
    (not_delim_facts (wf.netlocNoDelim _ hcnmem)).1
  have hnlast := List.dropLast_append_getLast hn
  have hp1shape : rstripSlashes r.path = [] ∨ ∃ t, rstripSlashes r.path = '/' :: t := by
    rcases wf.pathSlash hn with hp | ⟨t0, ht0⟩
    · left; rw [hp]; rfl
    · exact rstripSlashes_slash_head ht0
  have hp1h : '#' ∉ rstripSlashes r.path :=
    fun hc => wf.pathNoH (rstripSlashes_subset _ hc)
  have hp1q : '?' ∉ rstripSlashes r.path :=
    fun hc => wf.pathNoQ (rstripSlashes_subset _ hc)
  have hheadlow : ¬ c0.toNat ≤ 32 :=
    (scheme_not_special wf.schemeAll c0 (by rw [hs0]; simp)).2.2.2
  by_cases hqe : r.query = []
  · -- query empty: the trailing-slash strip eats into the path
    have hreb : rebuildL r = (r.scheme ++ ':' :: '/' :: '/' :: r.netloc) ++ r.path := by
      unfold rebuildL
      rw [hqe]
      simp
    have hA : rstripSlashes (r.scheme ++ ':' :: '/' :: '/' :: r.netloc) =
        r.scheme ++ ':' :: '/' :: '/' :: r.netloc := by
      have hsplitA : r.scheme ++ ':' :: '/' :: '/' :: r.netloc =
          (r.scheme ++ ':' :: '/' :: '/' :: r.netloc.dropLast) ++ [r.netloc.getLast hn] := by
        conv_lhs => rw [← hnlast]
        simp
      rw [hsplitA]
      exact rstripSlashes_concat_ne hcnslash
    have hout : rstripSlashes (rebuildL r) =
        r.scheme ++ ':' :: '/' :: '/' :: (r.netloc ++ rstripSlashes r.path) := by
      rw [hreb, rstripSlashes_append]
      by_cases hp0 : rstripSlashes r.path = []
      · rw [if_pos hp0, hp0, hA]
        simp
      · rw [if_neg hp0]
        simp
    have hprep : preprocess (rstripSlashes (rebuildL r)) = rstripSlashes (rebuildL r) := by
      apply preprocess_eq_self
      · intro c hc
        rw [hout] at hc
        simp at hc
        rcases hc with hc | rfl | rfl | hc | hc
        · exact (scheme_not_special wf.schemeAll c hc).2.2.1
        · exact ⟨by decide, by decide, by decide⟩
        · exact ⟨by decide, by decide, by decide⟩
        · exact wf.netlocNoCtl c hc
        · exact wf.pathNoCtl c (rstripSlashes_subset c hc)
      · right
        rw [hout, hs0]
        exact ⟨c0, s' ++ ':' :: '/' :: '/' :: (r.netloc ++ rstripSlashes r.path),
          by simp, hheadlow⟩
    have htail : r.netloc ++ rstripSlashes r.path = r.netloc ++ rstripSlashes r.path ∧
        (rstripSlashes r.path = [] ∨
          ∃ d t', rstripSlashes r.path = d :: t' ∧ isNetlocDelim d = true) := by
      refine ⟨rfl, ?_⟩
      rcases hp1shape with hp | ⟨t, ht⟩
      · exact Or.inl hp
      · exact Or.inr ⟨'/', t, ht, by decide⟩
    have hsplit : urlsplitL (rstripSlashes (rebuildL r)) =
        Except.ok ⟨r.scheme, r.netloc, rstripSlashes r.path, [], []⟩ := by
      unfold urlsplitL
      rw [hprep, hout,
        schemeSplit_append hs wf.schemeAll wf.schemeHead wf.schemeLower]
      show urlsplitRest r.scheme ('/' :: '/' :: (r.netloc ++ rstripSlashes r.path)) = _
      rw [urlsplitRest_slashes, netlocTake_append wf.netlocNoDelim htail.2]
      show urlsplitAfterNetloc r.scheme r.netloc (rstripSlashes r.path) = _
      exact urlsplitAfterNetloc_ok _ wf.netlocBalanced (fragQuerySplit_no_marks hp1h hp1q)
    refine ⟨⟨r.scheme, r.netloc, rstripSlashes r.path, [], []⟩, ?_, ?_⟩
    · unfold urlparseL
      rw [hsplit]
      simp [Except.map, splitParams_eq_self (fun hc => hsemi (rstripSlashes_subset _ hc))]
    · have hreb2 : rebuildL ⟨r.scheme, r.netloc, rstripSlashes r.path, [], []⟩ =
          r.scheme ++ ':' :: '/' :: '/' :: (r.netloc ++ rstripSlashes r.path) := by
        unfold rebuildL
        simp
      rw [hreb2, ← hout, rstripSlashes_idem]
  · -- query non-empty: the strip stays inside the query
    have hq1 : rstripSlashes r.query ≠ [] := hq.resolve_left hqe
    have hqb : r.query.isEmpty = false := by
      cases hq2 : r.query with
      | nil => exact absurd hq2 hqe
      | cons a l => rfl
    have hq1h : '#' ∉ rstripSlashes r.query :=
      fun hc => wf.queryNoH (rstripSlashes_subset _ hc)
    have hreb : rebuildL r =
        ((r.scheme ++ ':' :: '/' :: '/' :: (r.netloc ++ r.path)) ++ ['?']) ++ r.query := by
      unfold rebuildL
      rw [hqb]
      simp
    have hout : rstripSlashes (rebuildL r) =
        r.scheme ++ ':' :: '/' :: '/' ::
          (r.netloc ++ (r.path ++ '?' :: rstripSlashes r.query)) := by
      rw [hreb, rstripSlashes_append, if_neg hq1]
      simp
    have hprep : preprocess (rstripSlashes (rebuildL r)) = rstripSlashes (rebuildL r) := by
      apply preprocess_eq_self
      · intro c hc
        rw [hout] at hc
        simp at hc
        rcases hc with hc | rfl | rfl | hc | hc | rfl | hc
        · exact (scheme_not_special wf.schemeAll c hc).2.2.1
        · exact ⟨by decide, by decide, by decide⟩
        · exact ⟨by decide, by decide, by decide⟩
        · exact wf.netlocNoCtl c hc
        · exact wf.pathNoCtl c hc
        · exact ⟨by decide, by decide, by decide⟩
        · exact wf.queryNoCtl c (rstripSlashes_subset c hc)
      · right
        rw [hout, hs0]
        exact ⟨c0, s' ++ ':' :: '/' :: '/' ::
          (r.netloc ++ (r.path ++ '?' :: rstripSlashes r.query)), by simp, hheadlow⟩
    have htail : r.path ++ '?' :: rstripSlashes r.query = [] ∨
        ∃ d t', r.path ++ '?' :: rstripSlashes r.query = d :: t' ∧ isNetlocDelim d = true := by
      rcases wf.pathSlash hn with hp | ⟨t0, ht0⟩
      · rw [hp]
        exact Or.inr ⟨'?', rstripSlashes r.query, rfl, by decide⟩
      · rw [ht0]
        exact Or.inr ⟨'/', t0 ++ '?' :: rstripSlashes r.query, by simp, by decide⟩
    have hsplit : urlsplitL (rstripSlashes (rebuildL r)) =
        Except.ok ⟨r.scheme, r.netloc, r.path, rstripSlashes r.query, []⟩ := by
      unfold urlsplitL
      rw [hprep, hout,
        schemeSplit_append hs wf.schemeAll wf.schemeHead wf.schemeLower]
      show urlsplitRest r.scheme
        ('/' :: '/' :: (r.netloc ++ (r.path ++ '?' :: rstripSlashes r.query))) = _
      rw [urlsplitRest_slashes, netlocTake_append wf.netlocNoDelim htail]
      show urlsplitAfterNetloc r.scheme r.netloc (r.path ++ '?' :: rstripSlashes r.query) = _
      exact urlsplitAfterNetloc_ok _ wf.netlocBalanced
        (fragQuerySplit_query wf.pathNoH wf.pathNoQ hq1h)
    refine ⟨⟨r.scheme, r.netloc, r.path, rstripSlashes r.query, []⟩, ?_, ?_⟩
    · unfold urlparseL
      rw [hsplit]
      simp [Except.map, splitParams_eq_self hsemi]
    · have hq1b : (rstripSlashes r.query).isEmpty = false := by
        cases hq2 : rstripSlashes r.query with
        | nil => exact absurd hq2 hq1
        | cons a l => rfl
      have hreb2 : rebuildL ⟨r.scheme, r.netloc, r.path, rstripSlashes r.query, []⟩ =
          r.scheme ++ ':' :: '/' :: '/' ::
            (r.netloc ++ (r.path ++ '?' :: rstripSlashes r.query)) := by
        unfold rebuildL
        rw [hq1b]
        simp
      rw [hreb2, ← hout, rstripSlashes_idem]


/-! ### normalize_url-level consequences -/

/-- On any successful parse, `normalize_url` returns the rebuilt,
all-trailing-slash-stripped string; the empty fallback to `self.domain`
is unreachable because the rebuilt string always contains a colon. -/
theorem normalize_url_ok_shape {d u : String} {r : UrlParts} (h : urlparse u = Except.ok r) :
    normalize_url d u = Except.ok (String.mk (rstripSlashes (rebuildL r))) ∧
      rstripSlashes (rebuildL r) ≠ [] := by
  have hcolon : ':' ∈ rebuildL r := by
    unfold rebuildL
    simp
  have hne : rstripSlashes (rebuildL r) ≠ [] :=
    rstripSlashes_ne_nil_of_mem hcolon (by decide)
  have hie : (rstripSlashes (rebuildL r)).isEmpty = false := by
    cases hc : rstripSlashes (rebuildL r) with
    | nil => exact absurd hc hne
    | cons a t => rfl
  constructor
  · unfold normalize_url
    rw [h]
    simp [Except.map, hie]
  · exact hne

theorem urlparse_of_data {u : String} : urlparse u = urlparseL u.data := rfl

/-- Idempotence of `normalize_url` under the round-trip hypotheses. -/
theorem normalize_url_idem_of {d u v : String} {r : UrlParts}
    (hp : urlparse u = Except.ok r)
    (hs : r.scheme ≠ []) (hn : r.netloc ≠ []) (hsemi : ';' ∉ r.path)
    (hq : r.query = [] ∨ rstripSlashes r.query ≠ [])
    (hv : normalize_url d u = Except.ok v) :
    normalize_url d v = Except.ok v := by
  obtain ⟨wf, -⟩ := urlparseL_ok_inv (urlparse_of_data ▸ hp)
  obtain ⟨hshape, hne⟩ := normalize_url_ok_shape (d := d) hp
  rw [hv] at hshape
  have hveq : v = String.mk (rstripSlashes (rebuildL r)) := Except.ok.inj hshape
  obtain ⟨r', hr', hre⟩ := normalize_roundtrip wf hs hn hsemi hq
  have hvdata : v.data = rstripSlashes (rebuildL r) := by rw [hveq]
  have hne' : (rstripSlashes (rebuildL r')).isEmpty = false := by
    rw [hre]
    cases hc : rstripSlashes (rebuildL r) with
    | nil => exact absurd hc hne
    | cons a t => rfl
  unfold normalize_url urlparse
  rw [hvdata, hr']
  simp [Except.map, hne']
  rw [hre, ← hvdata]

/-- The only parse failure is the bracket check: bracket-free inputs
always parse. -/
theorem urlsplitL_total {l : List Char} (h1 : '[' ∉ l) (h2 : ']' ∉ l) :
    ∃ r, urlsplitL l = Except.ok r := by
  match hres : urlsplitL l with
  | Except.ok r => exact ⟨r, rfl⟩
  | Except.error e =>
    exfalso
    have hS : schemeSplit (preprocess l) =
        ((schemeSplit (preprocess l)).1, (schemeSplit (preprocess l)).2) := rfl
    obtain ⟨-, -, -, hsub, -, -⟩ := schemeSplit_inv hS
    unfold urlsplitL urlsplitRest at hres
    split at hres
    case h_1 r2 heqR =>
      have hN : netlocTake r2 = ((netlocTake r2).1, (netlocTake r2).2) := rfl
      obtain ⟨hr2, -, -⟩ := netlocTake_eq hN
      have hmem : ∀ c ∈ (netlocTake r2).1, c ∈ l := by
        intro c hc
        apply preprocess_subset
        apply hsub
        rw [heqR, hr2]
        simp [hc]
      unfold urlsplitAfterNetloc at hres
      split at hres
      case isTrue hbr =>
        have hub : ¬ '[' ∈ (netlocTake r2).1 := fun hc => h1 (hmem _ hc)
        have hub2 : ¬ ']' ∈ (netlocTake r2).1 := fun hc => h2 (hmem _ hc)
        have e1 : (netlocTake r2).1.contains '[' = false := by
          cases hbv : (netlocTake r2).1.contains '[' with
          | false => rfl
          | true => exact absurd (List.elem_iff.mp hbv) hub
        have e2 : (netlocTake r2).1.contains ']' = false := by
          cases hbv : (netlocTake r2).1.contains ']' with
          | false => rfl
          | true => exact absurd (List.elem_iff.mp hbv) hub2
        rw [e1, e2] at hbr
        simp at hbr
      case isFalse => cases hres
    case h_2 => cases hres

theorem urlparseL_total {l : List Char} (h1 : '[' ∉ l) (h2 : ']' ∉ l) :
    ∃ r, urlparseL l = Except.ok r := by
  obtain ⟨r, hr⟩ := urlsplitL_total h1 h2
  exact ⟨_, by unfold urlparseL; rw [hr]; rfl⟩

/-! ### Crawl-loop invariants -/

/-- The record-level invariant shared by all three crawl loops: emitted
record URLs are pairwise distinct, marked visited, in-domain, and in the
image of `normalize_url`. -/
def RecordsOK (domain : String) (s : CrawlState) : Prop :=
  (s.results.map PageRecord.url).Nodup ∧
  (∀ rec ∈ s.results, rec.url ∈ s.visited) ∧
  (∀ rec ∈ s.results, is_same_domain domain rec.url = true) ∧
  (∀ rec ∈ s.results, ∃ u, normalize_url domain u = Except.ok rec.url)

theorem recordsOK_skip {domain : String} {s : CrawlState} (h : RecordsOK domain s)
    (rest : List String) (ab : Bool) :
    RecordsOK domain ⟨s.visited, rest, s.results, ab⟩ :=
  ⟨h.1, h.2.1, h.2.2.1, h.2.2.2⟩

theorem recordsOK_mark {domain : String} {s : CrawlState} (h : RecordsOK domain s)
    (nu : String) (rest : List String) :
    RecordsOK domain ⟨nu :: s.visited, rest, s.results, s.aborted⟩ :=
  ⟨h.1, fun rec hr => List.mem_cons_of_mem _ (h.2.1 rec hr), h.2.2.1, h.2.2.2⟩

theorem recordsOK_record {domain : String} {s : CrawlState} (h : RecordsOK domain s)
    {nu u : String} (title desc : String) (queue : List String)
    (hvis : nu ∉ s.visited) (hdom : is_same_domain domain nu = true)
    (hnorm : normalize_url domain u = Except.ok nu) :
    RecordsOK domain ⟨nu :: s.visited, queue,
      s.results ++ [⟨nu, title, desc⟩], s.aborted⟩ := by
  obtain ⟨h1, h2, h3, h4⟩ := h
  refine ⟨?_, ?_, ?_, ?_⟩
  · rw [List.map_append]
    simp [List.nodup_append, h1]
    intro x hx
    intro hxe
    exact hvis (hxe ▸ h2 x hx)
  · intro rec hr
    rcases List.mem_append.mp hr with hr | hr
    · exact List.mem_cons_of_mem _ (h2 rec hr)
    · simp at hr
      rw [hr]
      simp
  · intro rec hr
    rcases List.mem_append.mp hr with hr | hr
    · exact h3 rec hr
    · simp at hr
      rw [hr]
      exact hdom
  · intro rec hr
    rcases List.mem_append.mp hr with hr | hr
    · exact h4 rec hr
    · simp at hr
      rw [hr]
      exact ⟨u, hnorm⟩


theorem nodup_concat {α : Type} [DecidableEq α] {l : List α} {a : α}
    (h : l.Nodup) (ha : a ∉ l) : (l ++ [a]).Nodup := by
  rw [List.nodup_append]
  refine ⟨h, List.nodup_singleton a, ?_⟩
  intro x hx hx2
  simp at hx2
  rw [hx2] at hx
  exact ha hx

theorem processLinksSimple_nodup {domain : String} {visited : List String} :
    ∀ (links queue : List String), queue.Nodup →
      (processLinksSimple domain visited queue links).Nodup := by
  intro links
  induction links with
  | nil => intro q h; exact h
  | cons link rest ih =>
    intro q h
    unfold processLinksSimple
    split
    · exact h
    · split
      · split
        · exact h
        · split
          · next hcond =>
            exact ih _ (nodup_concat h hcond.2)
          · exact ih _ h
        · exact ih _ h
      · exact ih _ h

theorem processLinksSimple_mem {domain : String} {visited : List String} :
    ∀ (links queue : List String) (u : String),
      u ∈ processLinksSimple domain visited queue links → u ∈ queue ∨ u ∉ visited := by
  intro links
  induction links with
  | nil =>
    intro q u h
    exact Or.inl h
  | cons link rest ih =>
    intro q u h
    unfold processLinksSimple at h
    split at h
    · exact Or.inl h
    · split at h
      · split at h
        · exact Or.inl h
        · split at h
          · next hcond =>
            rcases ih _ u h with hin | hout
            · rcases List.mem_append.mp hin with hin | hin
              · exact Or.inl hin
              · simp at hin
                rw [hin]
                exact Or.inr hcond.1
            · exact Or.inr hout
          · exact ih _ u h
        · exact ih _ u h
      · exact ih _ u h

/-- Exhaustive description of what one crawl.py loop iteration can do. -/
theorem stepSimple_cases (env : String → FetchOutcome) (domain : String) (s : CrawlState) :
    stepSimple env domain s = s ∨
    (∃ url rest ab, s.to_visit = url :: rest ∧
      stepSimple env domain s = ⟨s.visited, rest, s.results, ab⟩) ∨
    (∃ url rest nu, s.to_visit = url :: rest ∧ normalize_url domain url = Except.ok nu ∧
      nu ∉ s.visited ∧
      stepSimple env domain s = ⟨nu :: s.visited, rest, s.results, s.aborted⟩) ∨
    (∃ url rest nu title desc links, s.to_visit = url :: rest ∧
      normalize_url domain url = Except.ok nu ∧ nu ∉ s.visited ∧
      is_same_domain domain nu = true ∧
      stepSimple env domain s = ⟨nu :: s.visited,
        processLinksSimple domain (nu :: s.visited) rest links,
        s.results ++ [⟨nu, title, desc⟩], s.aborted⟩) := by
  unfold stepSimple
  split
  · exact Or.inl rfl
  · split
    · exact Or.inl rfl
    · next url rest heq =>
      split
      · next e herr =>
        exact Or.inr (Or.inl ⟨url, rest, true, heq, rfl⟩)
      · next nu hnorm =>
        split
        · exact Or.inr (Or.inl ⟨url, rest, s.aborted, heq, rfl⟩)
        · next hvis =>
          split
          · exact Or.inr (Or.inl ⟨url, rest, s.aborted, heq, rfl⟩)
          · next hdom =>
            split
            · exact Or.inr (Or.inl ⟨url, rest, true, heq, rfl⟩)
            · exact Or.inr (Or.inl ⟨url, rest, s.aborted, heq, rfl⟩)
            · next hval =>
              split
              · exact Or.inr (Or.inr (Or.inl ⟨url, rest, nu, heq, hnorm, hvis, rfl⟩))
              · exact Or.inr (Or.inr (Or.inl ⟨url, rest, nu, heq, hnorm, hvis, rfl⟩))
              · next ct title desc links henv =>
                split
                · exact Or.inr (Or.inr (Or.inl ⟨url, rest, nu, heq, hnorm, hvis, rfl⟩))
                · next hdom2 =>
                  refine Or.inr (Or.inr (Or.inr
                    ⟨url, rest, nu, title, desc, links, heq, hnorm, hvis, ?_, rfl⟩))
                  simpa using hdom


/-- Exhaustive description of one crawl_pages.py loop iteration. -/
theorem stepPages_cases (env : String → FetchOutcome) (domain : String) (s : CrawlState) :
    stepPages env domain s = s ∨
    (∃ url rest ab, s.to_visit = url :: rest ∧
      stepPages env domain s = ⟨s.visited, rest, s.results, ab⟩) ∨
    (∃ url rest nu, s.to_visit = url :: rest ∧ normalize_url domain url = Except.ok nu ∧
      nu ∉ s.visited ∧
      stepPages env domain s = ⟨nu :: s.visited, rest, s.results, s.aborted⟩) ∨
    (∃ url rest nu title desc queue, s.to_visit = url :: rest ∧
      normalize_url domain url = Except.ok nu ∧ nu ∉ s.visited ∧
      is_same_domain domain nu = true ∧
      stepPages env domain s = ⟨nu :: s.visited, queue,
        s.results ++ [⟨nu, title, desc⟩], s.aborted⟩) := by
  unfold stepPages
  split
  · exact Or.inl rfl
  · split
    · exact Or.inl rfl
    · next url rest heq =>
      split
      · exact Or.inr (Or.inl ⟨url, rest, true, heq, rfl⟩)
      · next nu hnorm =>
        split
        · exact Or.inr (Or.inl ⟨url, rest, s.aborted, heq, rfl⟩)
        · next hvis =>
          split
          · exact Or.inr (Or.inl ⟨url, rest, s.aborted, heq, rfl⟩)
          · next hdom =>
            split
            · exact Or.inr (Or.inr (Or.inl ⟨url, rest, nu, heq, hnorm, hvis, rfl⟩))
            · exact Or.inr (Or.inr (Or.inl ⟨url, rest, nu, heq, hnorm, hvis, rfl⟩))
            · next ct title desc links henv =>
              refine Or.inr (Or.inr (Or.inr
                ⟨url, rest, nu, title, desc, _, heq, hnorm, hvis, ?_, rfl⟩))
              simpa using hdom

/-- Exhaustive description of one spa_crawl.py loop iteration. -/
theorem stepSpa_cases (env : String → FetchOutcome) (domain : String) (s : CrawlState) :
    stepSpa env domain s = s ∨
    (∃ url rest ab, s.to_visit = url :: rest ∧
      stepSpa env domain s = ⟨s.visited, rest, s.results, ab⟩) ∨
    (∃ url rest nu, s.to_visit = url :: rest ∧ normalize_url domain url = Except.ok nu ∧
      nu ∉ s.visited ∧
      stepSpa env domain s = ⟨nu :: s.visited, rest, s.results, s.aborted⟩) ∨
    (∃ url rest nu title desc queue, s.to_visit = url :: rest ∧
      normalize_url domain url = Except.ok nu ∧ nu ∉ s.visited ∧
      is_same_domain domain nu = true ∧
      stepSpa env domain s = ⟨nu :: s.visited, queue,
        s.results ++ [⟨nu, title, desc⟩], s.aborted⟩) := by
  unfold stepSpa
  split
  · exact Or.inl rfl
  · split
    · exact Or.inl rfl
    · next url rest heq =>
      split
      · exact Or.inr (Or.inl ⟨url, rest, true, heq, rfl⟩)
      · next nu hnorm =>
        split
        · exact Or.inr (Or.inl ⟨url, rest, s.aborted, heq, rfl⟩)
        · next hvis =>
          split
          · exact Or.inr (Or.inl ⟨url, rest, s.aborted, heq, rfl⟩)
          · next hdom =>
            split
            · exact Or.inr (Or.inl ⟨url, rest, true, heq, rfl⟩)
            · exact Or.inr (Or.inl ⟨url, rest, s.aborted, heq, rfl⟩)
            · next hval =>
              split
              · exact Or.inr (Or.inr (Or.inl ⟨url, rest, nu, heq, hnorm, hvis, rfl⟩))
              · exact Or.inr (Or.inr (Or.inl ⟨url, rest, nu, heq, hnorm, hvis, rfl⟩))
              · next ct title desc links henv =>
                refine Or.inr (Or.inr (Or.inr
                  ⟨url, rest, nu, title, desc, _, heq, hnorm, hvis, ?_, rfl⟩))
                simpa using hdom

theorem recordsOK_of_cases {domain : String} {s s' : CrawlState}
    (h : RecordsOK domain s)
    (hc : s' = s ∨
      (∃ url rest ab, s.to_visit = url :: rest ∧ s' = ⟨s.visited, rest, s.results, ab⟩) ∨
      (∃ url rest nu, s.to_visit = url :: rest ∧ normalize_url domain url = Except.ok nu ∧
        nu ∉ s.visited ∧ s' = ⟨nu :: s.visited, rest, s.results, s.aborted⟩) ∨
      (∃ url rest nu title desc queue, s.to_visit = url :: rest ∧
        normalize_url domain url = Except.ok nu ∧ nu ∉ s.visited ∧
        is_same_domain domain nu = true ∧
        s' = ⟨nu :: s.visited, queue, s.results ++ [⟨nu, title, desc⟩], s.aborted⟩)) :
    RecordsOK domain s' := by
  rcases hc with rfl | ⟨url, rest, ab, -, rfl⟩ | ⟨url, rest, nu, -, -, -, rfl⟩ |
    ⟨url, rest, nu, title, desc, queue, -, hnorm, hvis, hdom, rfl⟩
  · exact h
  · exact recordsOK_skip h rest ab
  · exact recordsOK_mark h nu rest
  · exact recordsOK_record h title desc queue hvis hdom hnorm

theorem crawlSimpleN_recordsOK (env : String → FetchOutcome) (raw : String) (n : Nat) :
    RecordsOK (initDomain raw) (crawlSimpleN env raw n) := by
  induction n with
  | zero => exact ⟨by simp [initState, crawlSimpleN], by simp [initState, crawlSimpleN],
      by simp [initState, crawlSimpleN], by simp [initState, crawlSimpleN]⟩
  | succ n ih =>
    show RecordsOK (initDomain raw) (stepSimple env (initDomain raw) (crawlSimpleN env raw n))
    apply recordsOK_of_cases ih
    rcases stepSimple_cases env (initDomain raw) (crawlSimpleN env raw n) with h1 | h2 | h3 | h4
    · exact Or.inl h1
    · exact Or.inr (Or.inl h2)
    · exact Or.inr (Or.inr (Or.inl h3))
    · obtain ⟨url, rest, nu, title, desc, links, ha, hb, hcv, hd, he⟩ := h4
      exact Or.inr (Or.inr (Or.inr ⟨url, rest, nu, title, desc, _, ha, hb, hcv, hd, he⟩))

theorem crawlPagesN_recordsOK (env : String → FetchOutcome) (raw : String) (n : Nat) :
    RecordsOK (initDomain raw) (crawlPagesN env raw n) := by
  induction n with
  | zero => exact ⟨by simp [initState, crawlPagesN], by simp [initState, crawlPagesN],
      by simp [initState, crawlPagesN], by simp [initState, crawlPagesN]⟩
  | succ n ih =>
    show RecordsOK (initDomain raw) (stepPages env (initDomain raw) (crawlPagesN env raw n))
    exact recordsOK_of_cases ih (stepPages_cases env (initDomain raw) (crawlPagesN env raw n))

theorem crawlSpaN_recordsOK (env : String → FetchOutcome) (raw : String) (n : Nat) :
    RecordsOK (initDomain raw) (crawlSpaN env raw n) := by
  induction n with
  | zero => exact ⟨by simp [initState, crawlSpaN], by simp [initState, crawlSpaN],
      by simp [initState, crawlSpaN], by simp [initState, crawlSpaN]⟩
  | succ n ih =>
    show RecordsOK (initDomain raw) (stepSpa env (initDomain raw) (crawlSpaN env raw n))
    exact recordsOK_of_cases ih (stepSpa_cases env (initDomain raw) (crawlSpaN env raw n))

theorem stepSimple_queue_nodup {env : String → FetchOutcome} {domain : String}
    {s : CrawlState} (h : s.to_visit.Nodup) :
    (stepSimple env domain s).to_visit.Nodup := by
  rcases stepSimple_cases env domain s with hst | ⟨url, rest, ab, heq, hst⟩ |
    ⟨url, rest, nu, heq, -, -, hst⟩ |
    ⟨url, rest, nu, title, desc, links, heq, -, -, -, hst⟩
  · rw [hst]
    exact h
  · rw [hst]
    exact (List.nodup_cons.mp (heq ▸ h)).2
  · rw [hst]
    exact (List.nodup_cons.mp (heq ▸ h)).2
  · rw [hst]
    exact processLinksSimple_nodup _ _ ((List.nodup_cons.mp (heq ▸ h)).2)

theorem crawlSimpleN_queue_nodup (env : String → FetchOutcome) (raw : String) (n : Nat) :
    (crawlSimpleN env raw n).to_visit.Nodup := by
  induction n with
  | zero => simp [initState, crawlSimpleN]
  | succ n ih => exact stepSimple_queue_nodup ih

/-- A URL freshly enqueued by one crawl.py iteration is not in the
updated visited set: once visited, never re-enqueued. -/
theorem stepSimple_fresh {env : String → FetchOutcome} {domain : String}
    {s : CrawlState} {u : String}
    (hin : u ∈ (stepSimple env domain s).to_visit) (hnew : u ∉ s.to_visit) :
    u ∉ (stepSimple env domain s).visited := by
  rcases stepSimple_cases env domain s with hst | ⟨url, rest, ab, heq, hst⟩ |
    ⟨url, rest, nu, heq, -, -, hst⟩ |
    ⟨url, rest, nu, title, desc, links, heq, -, -, -, hst⟩
  · rw [hst] at hin
    exact absurd hin hnew
  · rw [hst] at hin
    exact absurd (heq ▸ List.mem_cons_of_mem url hin) hnew
  · rw [hst] at hin
    exact absurd (heq ▸ List.mem_cons_of_mem url hin) hnew
  · rw [hst] at hin ⊢
    rcases processLinksSimple_mem links rest u hin with hmem | hout
    · exact absurd (heq ▸ List.mem_cons_of_mem url hmem) hnew
    · exact hout


/-! ### Claim theorems -/

/-- C1: for every run of each crawl loop, the emitted PageRecord sequence
never contains two records with the same (normalized) URL: a URL whose
normalized form is in the visited set is skipped before fetching, and the
normalized URL enters the visited set before the fetch is dispatched. -/
theorem c1_no_duplicate_visits :
    ∀ (env : String → FetchOutcome) (raw : String) (n : Nat),
      ((crawlSimpleN env raw n).results.map PageRecord.url).Nodup ∧
      ((crawlPagesN env raw n).results.map PageRecord.url).Nodup ∧
      ((crawlSpaN env raw n).results.map PageRecord.url).Nodup :=
  fun env raw n =>
    ⟨(crawlSimpleN_recordsOK env raw n).1, (crawlPagesN_recordsOK env raw n).1,
      (crawlSpaN_recordsOK env raw n).1⟩

/-- C2 counterexample: `normalize_url` strips ALL trailing slashes, not
exactly one: on "https://x.com/a//" it returns "https://x.com/a", not the
"https://x.com/a/" that stripping exactly one slash would produce. -/
theorem c2_counterexample :
    normalize_url "https://x.com" "https://x.com/a//" = Except.ok "https://x.com/a" ∧
      "https://x.com/a" ≠ "https://x.com/a/" := by decide

/-- C2 amended: for every raw URL that parses, `normalize_url` rebuilds it
as scheme://host/path[?query] with the fragment removed and strips ALL
trailing '/' characters from the whole rebuilt string; the empty-result
fallback to the configured origin is unreachable, because the rebuilt
string always contains ':'.  Fragment stripping behaves as claimed:
normalize("https://x.com/a#section") equals normalize("https://x.com/a"). -/
theorem c2_amended :
    (∀ (d u : String) (r : UrlParts), urlparse u = Except.ok r →
      normalize_url d u = Except.ok (String.mk (rstripSlashes (rebuildL r))) ∧
        rstripSlashes (rebuildL r) ≠ []) ∧
    normalize_url "https://x.com" "https://x.com/a#section" =
      normalize_url "https://x.com" "https://x.com/a" :=
  ⟨fun _ _ _ h => normalize_url_ok_shape h, by decide⟩

theorem c2_witness :
    normalize_url "https://x.com" "https://x.com/a//" =
      Except.ok (String.mk (rstripSlashes
        (rebuildL ⟨"https".data, "x.com".data, "/a//".data, [], []⟩))) :=
  (c2_amended.1 "https://x.com" "https://x.com/a//"
    ⟨"https".data, "x.com".data, "/a//".data, [], []⟩ (by decide)).1

/-- C3 counterexample: normalization is NOT idempotent for every raw URL.
Query runs of slashes ("https://x.com/a?/" normalizes to
"https://x.com/a?", which re-normalizes to "https://x.com/a"), scheme-less
URLs ("a" normalizes to "://a", which re-normalizes to "://://a"), and a
';' in the final path segment exposed by the slash strip
("https://x.com/a;x/" normalizes to "https://x.com/a;x", which
re-normalizes to "https://x.com/a") are all non-idempotent. -/
theorem c3_counterexample :
    (normalize_url "https://x.com" "https://x.com/a?/" = Except.ok "https://x.com/a?" ∧
      normalize_url "https://x.com" "https://x.com/a?" = Except.ok "https://x.com/a" ∧
      "https://x.com/a" ≠ "https://x.com/a?") ∧
    (normalize_url "https://x.com" "a" = Except.ok "://a" ∧
      normalize_url "https://x.com" "://a" = Except.ok "://://a" ∧
      "://://a" ≠ "://a") ∧
    (normalize_url "https://x.com" "https://x.com/a;x/" = Except.ok "https://x.com/a;x" ∧
      normalize_url "https://x.com" "https://x.com/a;x" = Except.ok "https://x.com/a" ∧
      "https://x.com/a" ≠ "https://x.com/a;x") := by decide

/-- C3 amended: normalization is idempotent for every raw URL whose parse
has a non-empty scheme, a non-empty host (netloc), a path free of ';',
and a query that is not a non-empty run of slashes; the counterexample
shows each of these conditions is necessary. -/
theorem c3_amended :
    ∀ (d u v : String) (r : UrlParts), urlparse u = Except.ok r →
      r.scheme ≠ [] → r.netloc ≠ [] → ';' ∉ r.path →
      (r.query = [] ∨ rstripSlashes r.query ≠ []) →
      normalize_url d u = Except.ok v → normalize_url d v = Except.ok v :=
  fun _ _ _ _ hp hs hn hsemi hq hv => normalize_url_idem_of hp hs hn hsemi hq hv

theorem c3_witness :
    normalize_url "https://x.com" "https://x.com/a" = Except.ok "https://x.com/a" :=
  c3_amended "https://x.com" "https://x.com/a/" "https://x.com/a"
    ⟨"https".data, "x.com".data, "/a/".data, [], []⟩
    (by decide) (by decide) (by decide) (by decide) (Or.inl rfl) (by decide)

/-- C4: every PageRecord emitted by the crawl.py loop is in scope:
`is_same_domain` (netloc equality against the configured origin) holds of
its URL, because a dequeued URL with a differing host is skipped before
fetching. -/
theorem c4_scope_containment :
    ∀ (env : String → FetchOutcome) (raw : String) (n : Nat) (rec : PageRecord),
      rec ∈ (crawlSimpleN env raw n).results →
      is_same_domain (initDomain raw) rec.url = true :=
  fun env raw n rec h => (crawlSimpleN_recordsOK env raw n).2.2.1 rec h

def envScenarioA : String → FetchOutcome := fun u =>
  if u = "https://x.com" then
    FetchOutcome.ok "text/html" "Home" "Welcome" ["https://x.com/about", "https://other.com/x"]
  else FetchOutcome.ok "text/html" "About" "" []

theorem c4_witness :
    is_same_domain (initDomain "https://x.com") "https://x.com/about" = true :=
  c4_scope_containment envScenarioA "https://x.com" 2
    ⟨"https://x.com/about", "About", ""⟩ (by decide)

/-- C5: the extension filter inspects only the lowercased suffix of the
path component: false for "https://x.com/doc.pdf", true for
"https://x.com/page", true for "https://x.com/page?download=1.zip" (the
query is never inspected), and any two URLs parsing to the same path get
the same verdict. -/
theorem c5_extension_filtering :
    is_valid_page_url "https://x.com/doc.pdf" = Except.ok false ∧
    is_valid_page_url "https://x.com/page" = Except.ok true ∧
    is_valid_page_url "https://x.com/page?download=1.zip" = Except.ok true ∧
    (∀ (u v : String) (ru rv : UrlParts), urlparse u = Except.ok ru →
      urlparse v = Except.ok rv → ru.path = rv.path →
      is_valid_page_url u = is_valid_page_url v) := by
  refine ⟨by decide, by decide, by decide, ?_⟩
  intro u v ru rv hu hv hpath
  unfold is_valid_page_url
  rw [hu, hv]
  simp [Except.map, hpath]

theorem c5_witness :
    is_valid_page_url "https://a.org/page#f" = is_valid_page_url "https://b.net/page?z=1" :=
  c5_extension_filtering.2.2.2 "https://a.org/page#f" "https://b.net/page?z=1"
    ⟨"https".data, "a.org".data, "/page".data, [], "f".data⟩
    ⟨"https".data, "b.net".data, "/page".data, "z=1".data, []⟩
    (by decide) (by decide) (by decide)

def envJson : String → FetchOutcome := fun u =>
  if u = "https://x.com" then FetchOutcome.ok "application/json" "T" "D" []
  else FetchOutcome.timeout

/-- C6 counterexample: the crawl_pages.py fetch path has NO content-type
gate: a URL answered with Content-Type application/json still produces a
PageRecord, contradicting the claim that the page is skipped entirely on
every non-browser fetch path. -/
theorem c6_counterexample :
    (crawlPagesN envJson "https://x.com" 1).results = [⟨"https://x.com", "T", "D"⟩] ∧
      (crawlPagesN envJson "https://x.com" 1).results ≠ [] := by decide

/-- C6 amended: on the crawl.py fetch path, a fetched resource whose
declared content type does not contain text/html is skipped entirely: the
iteration only moves the normalized URL into the visited set, emits no
PageRecord, and discovers zero links.  The crawl_pages.py path performs no
such check and emits a record even for application/json. -/
theorem c6_amended :
    (∀ (env : String → FetchOutcome) (d : String) (s : CrawlState)
      (url : String) (rest : List String) (nu ct title desc : String) (links : List String),
      s.aborted = false → s.to_visit = url :: rest →
      normalize_url d url = Except.ok nu → nu ∉ s.visited →
      is_same_domain d nu = true → is_valid_page_url nu = Except.ok true →
      env nu = FetchOutcome.ok ct title desc links →
      hasSub ct.data "text/html".data = false →
      stepSimple env d s = ⟨nu :: s.visited, rest, s.results, s.aborted⟩) ∧
    (crawlPagesN envJson "https://x.com" 1).results = [⟨"https://x.com", "T", "D"⟩] := by
  refine ⟨?_, by decide⟩
  intro env d s url rest nu ct title desc links hab hq hn hv hd hva he hct
  unfold stepSimple
  simp [hab, hq, hn, hv, hd, hva, he, hct]

theorem c6_witness :
    stepSimple envJson "https://x.com" (initState "https://x.com") =
      ⟨["https://x.com"], [], [], false⟩ :=
  c6_amended.1 envJson "https://x.com" (initState "https://x.com")
    "https://x.com" [] "https://x.com" "application/json" "T" "D" []
    (by decide) (by decide) (by decide) (by decide) (by decide) (by decide)
    (by decide) (by decide)

/-- C7 counterexample: crawl_pages.py's `save_to_csv` has no emptiness
check: flushing zero records still writes the header row. -/
theorem c7_counterexample :
    save_to_csv_pages [] = [["url", "title", "description"]] ∧
      save_to_csv_pages [] ≠ [] := by decide

/-- C7 amended: in crawl.py and spa_crawl.py, flushing zero accumulated
records is a no-op that reports "no results" and writes nothing to the
output target; with at least one record the header row plus one row per
record is written in visit order.  crawl_pages.py's flush always writes
the header row, even with zero records. -/
theorem c7_amended :
    save_to_csv [] = SaveOutcome.noResults ∧
    save_to_csv_pages [] = [["url", "title", "description"]] ∧
    (∀ results : List PageRecord, results ≠ [] →
      save_to_csv results = SaveOutcome.wrote
        (["url", "title", "description"] ::
          results.map fun r => [r.url, r.title, r.description])) := by
  refine ⟨by decide, by decide, ?_⟩
  intro results hne
  unfold save_to_csv
  rw [if_neg]
  intro h
  exact hne (List.isEmpty_iff.mp h)

theorem c7_witness :
    save_to_csv [⟨"https://x.com", "Home", "Welcome"⟩] = SaveOutcome.wrote
      [["url", "title", "description"], ["https://x.com", "Home", "Welcome"]] :=
  c7_amended.2.2 [⟨"https://x.com", "Home", "Welcome"⟩] (by decide)

/-- C8 counterexample: `normalize_url` is not total: an authority with an
unmatched '[' makes `urlparse` raise ValueError("Invalid IPv6 URL"), with
no try/except in `normalize_url` to stop it. -/
theorem c8_counterexample :
    normalize_url "https://x.com" "http://[" = Except.error "Invalid IPv6 URL" := by decide

/-- C8 amended: `normalize_url` returns a value on every all-ASCII input
that contains no square bracket.  The ASCII restriction keeps the
statement inside the fragment where the model coincides with CPython:
besides the modelled bracket check, CPython's `urlsplit` can also raise
through `_checknetloc`, but only for a netloc containing a non-ASCII
character (for an ASCII netloc it returns immediately), and through
`_check_bracketed_host`, but only when '[' is present.  In the
link-discovery loop a link whose normalization raises is absorbed by the
blanket handler and contributes nothing to the frontier (the remaining
links of that page are abandoned with it). -/
theorem c8_amended :
    (∀ d u : String, (∀ c ∈ u.data, c.toNat ≤ 127) → '[' ∉ u.data → ']' ∉ u.data →
      ∃ v, normalize_url d u = Except.ok v) ∧
    (∀ (domain : String) (visited queue : List String) (link : String)
      (rest : List String) (e : String),
      normalize_url domain link = Except.error e →
      processLinksSimple domain visited queue (link :: rest) = queue) := by
  constructor
  · intro d u hascii h1 h2
    obtain ⟨r, hr⟩ := urlparseL_total h1 h2
    refine ⟨if (rstripSlashes (rebuildL r)).isEmpty then d
      else String.mk (rstripSlashes (rebuildL r)), ?_⟩
    unfold normalize_url urlparse
    rw [hr]
    rfl
  · intro domain visited queue link rest e h
    unfold processLinksSimple
    rw [h]

theorem c8_witness :
    (∃ v, normalize_url "https://x.com" "https://x.com/a" = Except.ok v) ∧
      processLinksSimple "https://x.com" [] [] ["http://[", "https://x.com/b"] = [] :=
  ⟨c8_amended.1 "https://x.com" "https://x.com/a" (by decide) (by decide) (by decide),
    c8_amended.2 "https://x.com" [] [] "http://[" ["https://x.com/b"]
      "Invalid IPv6 URL" (by decide)⟩

def envTwoLinks : String → FetchOutcome := fun u =>
  if u = "https://x.com" then
    FetchOutcome.ok "text/html" "t" "d" ["https://x.com/a?/", "https://x.com/a/"]
  else FetchOutcome.timeout

/-- C9 counterexample: after one crawl.py iteration on a page linking
"https://x.com/a?/" and "https://x.com/a/", the queue holds the two
distinct entries "https://x.com/a?" and "https://x.com/a", which both
re-normalize to the canonical URL "https://x.com/a" — so a canonical URL
IS present in the frontier queue more than once. -/
theorem c9_counterexample :
    (crawlSimpleN envTwoLinks "https://x.com" 1).to_visit =
      ["https://x.com/a?", "https://x.com/a"] ∧
    normalize_url (initDomain "https://x.com") "https://x.com/a?" =
      Except.ok "https://x.com/a" ∧
    normalize_url (initDomain "https://x.com") "https://x.com/a" =
      Except.ok "https://x.com/a" ∧
    "https://x.com/a?" ≠ "https://x.com/a" := by decide

/-- C9 amended: in crawl.py, the queue never contains the same entry
string twice, and an entry that is freshly enqueued by an iteration is
not in the updated visited set (once visited, a string is never enqueued
again); but two distinct queue entries can re-normalize at pop time to
the same canonical URL (the visited check at pop then prevents a second
visit), and in crawl_pages.py the raw absolute URL is enqueued so even
duplicate entry strings are possible. -/
theorem c9_amended :
    (∀ (env : String → FetchOutcome) (raw : String) (n : Nat),
      (crawlSimpleN env raw n).to_visit.Nodup) ∧
    (∀ (env : String → FetchOutcome) (domain : String) (s : CrawlState) (u : String),
      u ∈ (stepSimple env domain s).to_visit → u ∉ s.to_visit →
      u ∉ (stepSimple env domain s).visited) :=
  ⟨crawlSimpleN_queue_nodup, fun _ _ _ _ h1 h2 => stepSimple_fresh h1 h2⟩

theorem c9_witness :
    "https://x.com/a?" ∉
      (stepSimple envTwoLinks (initDomain "https://x.com")
        (initState "https://x.com")).visited :=
  c9_amended.2 envTwoLinks (initDomain "https://x.com") (initState "https://x.com")
    "https://x.com/a?" (by decide) (by decide)

def envSeedQuery : String → FetchOutcome := fun u =>
  if u = "https://x.com/a?" then FetchOutcome.ok "text/html" "T" "De" []
  else FetchOutcome.timeout

/-- C10 counterexample: with the CLI-accepted origin
"https://x.com/a?/#f" (it starts with https://), the very first iteration
emits a record whose stored URL "https://x.com/a?" is NOT a fixed point
of normalize: normalize("https://x.com/a?") = "https://x.com/a". -/
theorem c10_counterexample :
    (crawlSimpleN envSeedQuery "https://x.com/a?/#f" 1).results =
      [⟨"https://x.com/a?", "T", "De"⟩] ∧
    normalize_url (initDomain "https://x.com/a?/#f") "https://x.com/a?" =
      Except.ok "https://x.com/a" ∧
    "https://x.com/a" ≠ "https://x.com/a?" := by decide

/-- C10 amended: every emitted PageRecord stores the output of
`normalize_url` on some dequeued URL — the dequeued URL is normalized
before the visited-set insert, the fetch, and the record append — but
because normalization is not idempotent, record.url ==
normalize(record.url) does not hold in every run. -/
theorem c10_amended :
    ∀ (env : String → FetchOutcome) (raw : String) (n : Nat) (rec : PageRecord),
      rec ∈ (crawlSimpleN env raw n).results →
      ∃ u, normalize_url (initDomain raw) u = Except.ok rec.url :=
  fun env raw n rec h => (crawlSimpleN_recordsOK env raw n).2.2.2 rec h

theorem c10_witness :
    ∃ u, normalize_url (initDomain "https://x.com/a?/#f") u =
      Except.ok "https://x.com/a?" :=
  c10_amended envSeedQuery "https://x.com/a?/#f" 1
    ⟨"https://x.com/a?", "T", "De"⟩ (by decide)
